import Mathlib

/-!
Shallow embedding of the PromptLens query pipeline
(promptlens-site/promptlens/lib/vector: matching.ts, embedding.ts,
db_tooling.ts and the Agent orchestration), together with proofs of the
behavioural properties claimed for it.

Numbers that the TypeScript source handles as JS floats are modelled as
exact rationals; similarity values, which the source derives through
Math.sqrt, are modelled as real numbers.  Asynchronous provider and
language-model calls are modelled as explicit function parameters, and
thrown exceptions as values of an error type carried in Except.
-/

namespace PromptLens

/-- Vector of numbers, as produced by the embedding provider. -/
abbrev Vec := List ℚ

/-- Error values modelling the exceptions thrown across the pipeline. -/
inductive Err where
  /-- matching.ts cosineSimilarity: Embeddings must have the same dimension. -/
  | dimensionMismatch
  /-- embedding.ts generateEmbedding: Input text cannot be empty. -/
  | invalidInput
  /-- network, auth or quota failure surfaced by the OpenAI client. -/
  | providerFailure
  /-- embedding.ts generateBatchEmbeddings: Batch embeddings length mismatch. -/
  | batchLengthMismatch
  /-- embedding.ts generateEmbedding: No embedding data received from OpenAI. -/
  | noData
  /-- model of the JS TypeError raised when an undefined embedding is used. -/
  | undefinedValue
  deriving DecidableEq, Repr

/-! ### Similarity Matcher (matching.ts) -/

/-- Mutable configuration of MatchingService; the active default threshold. -/
structure MatchingConfig where
  defaultThreshold : ℚ
  deriving DecidableEq, Repr

/-- Dot product accumulated by the loop in cosineSimilarity (matching.ts:47-51). -/
def dotProduct (a b : Vec) : ℚ := (List.zipWith (· * ·) a b).sum

/-- Sum of squares of one vector, the value of norm1 resp. norm2 before the
Math.sqrt calls in cosineSimilarity (matching.ts:47-54). -/
def sumSquares (a : Vec) : ℚ := (a.map (fun x => x * x)).sum

/-- Model of MatchingService.cosineSimilarity (matching.ts:38-61).  The source
computes norm1 = sqrt(sumSquares a) and tests norm1 === 0; since sumSquares is
nonnegative, that test is equivalent to the rational test sumSquares a = 0 used
here (see sqrt_sumSquares_eq_zero_iff below).  A length mismatch throws. -/
noncomputable def cosineSimilarity (a b : Vec) : Except Err ℝ :=
  if a.length ≠ b.length then .error .dimensionMismatch
  else if sumSquares a = 0 ∨ sumSquares b = 0 then .ok 0
  else .ok ((dotProduct a b : ℝ) /
    (Real.sqrt (sumSquares a) * Real.sqrt (sumSquares b)))

/-- Inner loop of MatchingService.batchThresholdSearch (matching.ts:177-182):
walk the candidates from index i upward and keep every index whose similarity
to q reaches the threshold.  A similarity error propagates. -/
noncomputable def thresholdScan (q : Vec) (t : ℚ) : ℕ → List Vec → Except Err (List ℕ)
  | _, [] => .ok []
  | i, c :: rest =>
    match cosineSimilarity q c with
    | .error e => .error e
    | .ok sim =>
      match thresholdScan q t (i + 1) rest with
      | .error e => .error e
      | .ok tail => if (t : ℝ) ≤ sim then .ok (i :: tail) else .ok tail

/-- Outer loop of MatchingService.batchThresholdSearch (matching.ts:175-183):
one scan row per query embedding, in order; a thrown error propagates. -/
noncomputable def scanRows (t : ℚ) (cs : List Vec) : List Vec → Except Err (List (List ℕ))
  | [] => .ok []
  | q :: rest =>
    match thresholdScan q t 0 cs with
    | .error e => .error e
    | .ok row =>
      match scanRows t cs rest with
      | .error e => .error e
      | .ok rows => .ok (row :: rows)

/-- Model of MatchingService.batchThresholdSearch (matching.ts:169-185).  The
optional per-call threshold falls back to the configured default. -/
noncomputable def batchThresholdSearch (cfg : MatchingConfig) (qs cs : List Vec)
    (thresholdOpt : Option ℚ) : Except Err (List (List ℕ)) :=
  scanRows (thresholdOpt.getD cfg.defaultThreshold) cs qs

/-- Similarity of one labeled pair together with its label, the element shape
built at matching.ts:215-218. -/
structure SimLabel where
  similarity : ℝ
  isRelated : Bool

/-- Labeled pair fed to threshold tuning (matching.ts:23-27). -/
structure LabeledPair where
  embedding1 : Vec
  embedding2 : Vec
  isRelated : Bool

/-- Precision, recall and F1 of a threshold against labeled similarities,
modelling MatchingService.calculateMetrics (matching.ts:187-208).  Rational
division returns 0 on a zero denominator, which matches the || 0 fallbacks. -/
noncomputable def calculateMetrics (sims : List SimLabel) (threshold : ℚ) :
    ℚ × ℚ × ℚ :=
  let counts := sims.foldl (fun (acc : ℕ × ℕ × ℕ) s =>
    if (threshold : ℝ) ≤ s.similarity then
      if s.isRelated then (acc.1 + 1, acc.2.1, acc.2.2) else (acc.1, acc.2.1 + 1, acc.2.2)
    else
      if s.isRelated then (acc.1, acc.2.1, acc.2.2 + 1) else acc) (0, 0, 0)
  let tp : ℚ := counts.1
  let fp : ℚ := counts.2.1
  let fn : ℚ := counts.2.2
  let precision := tp / (tp + fp)
  let recallScore := tp / (tp + fn)
  let f1 := 2 * (precision * recallScore) / (precision + recallScore)
  (precision, recallScore, f1)

/-- Metric selected by the optimizeFor argument of tuneThreshold. -/
inductive OptimizeFor where
  | f1
  | precision
  | recallScore
  deriving DecidableEq, Repr

/-- Threshold sweep range of tuneThreshold (matching.ts:213). -/
structure ThresholdRange where
  min : ℚ
  max : ℚ
  step : ℚ
  deriving DecidableEq, Repr

/-- Report returned by tuneThreshold (matching.ts:16-21). -/
structure ThresholdTuningResult where
  optimalThreshold : ℚ
  precision : ℚ
  recallScore : ℚ
  f1 : ℚ

/-- Thresholds visited by the for loop at matching.ts:224: min, min+step, ...
while the value stays at or below max.  For a nonpositive step with
min ≤ max the JS loop never terminates; that case is modelled as an empty
sweep and excluded by hypothesis where it matters. -/
def sweepThresholds (lo hi step : ℚ) : List ℚ :=
  if 0 < step ∧ lo ≤ hi then
    (List.range (((hi - lo) / step).floor.toNat + 1)).map (fun k => lo + (k : ℚ) * step)
  else []

/-- Projection of the metric triple chosen by optimizeFor. -/
def pickMetric (o : OptimizeFor) (m : ℚ × ℚ × ℚ) : ℚ :=
  match o with
  | .f1 => m.2.2
  | .precision => m.1
  | .recallScore => m.2.1

/-- Model of MatchingService.tuneThreshold (matching.ts:210-243).  The mutable
this.config is threaded explicitly: the function returns the report together
with the updated configuration, whose defaultThreshold the source overwrites
with the best threshold just before returning (matching.ts:235). -/
noncomputable def tuneThreshold (cfg : MatchingConfig) (labeledPairs : List LabeledPair)
    (optimizeFor : OptimizeFor) (range : ThresholdRange) :
    Except Err (ThresholdTuningResult × MatchingConfig) :=
  match labeledPairs.mapM (fun p =>
    (cosineSimilarity p.embedding1 p.embedding2).map (fun s => SimLabel.mk s p.isRelated)) with
  | .error e => .error e
  | .ok sims =>
    let best := (sweepThresholds range.min range.max range.step).foldl
      (fun (acc : ℚ × ℚ × (ℚ × ℚ × ℚ)) t =>
        let m := calculateMetrics sims t
        let score := pickMetric optimizeFor m
        if acc.2.1 < score then (t, score, m) else acc)
      (range.min, 0, (0, 0, 0))
    .ok ({ optimalThreshold := best.1, precision := best.2.2.1,
           recallScore := best.2.2.2.1, f1 := best.2.2.2.2 },
         { cfg with defaultThreshold := best.1 })

/-- Model of MatchingService.getThreshold (matching.ts:249-251). -/
def getThreshold (cfg : MatchingConfig) : ℚ := cfg.defaultThreshold

/-- Model of MatchingService.setThreshold (matching.ts:245-247). -/
def setThreshold (_cfg : MatchingConfig) (t : ℚ) : MatchingConfig :=
  { defaultThreshold := t }

/-! ### Embedding Provider Adapter (embedding.ts) -/

/-- Whitespace characters matched by the JS regex class \s (the common ones). -/
def isJsWhitespace (c : Char) : Bool :=
  c = ' ' ∨ c = '\t' ∨ c = '\n' ∨ c = '\r' ∨ c = '\x0b' ∨ c = '\x0c'

/-- Model of String.prototype.trim: drop leading and trailing whitespace. -/
def jsTrim (s : String) : String :=
  String.mk (((s.data.dropWhile isJsWhitespace).reverse.dropWhile isJsWhitespace).reverse)

/-- Model of String.prototype.toLowerCase, character by character. -/
def jsToLower (s : String) : String :=
  String.mk (s.data.map Char.toLower)

/-- Model of .replace of the regex matching one or more whitespace characters
with a single space: every whitespace run becomes one space. -/
def collapseWhitespace (s : String) : String :=
  String.mk (s.data.foldl (fun (acc : List Char × Bool) c =>
    if isJsWhitespace c then
      if acc.2 then acc else (acc.1 ++ [' '], true)
    else (acc.1 ++ [c], false)) ([], false)).1

/-- Model of EmbeddingService.cleanText (embedding.ts:85-95): trim, collapse
internal whitespace (the second replace, of line-break runs, is a no-op after
the first), and truncate to 8000 characters. -/
def cleanText (s : String) : String :=
  String.mk ((collapseWhitespace (jsTrim s)).data.take 8000)

/-- Model of EmbeddingService.generateEmbedding (embedding.ts:36-65).  The
OpenAI call is the provider parameter, returning the response data rows; the
source rethrows every failure wrapped in a generic message, which keeps it a
failure, so error identity is preserved up to that wrapping. -/
def generateEmbedding (provider : String → Except Err (List Vec)) (text : String) :
    Except Err Vec :=
  let c := cleanText text
  if jsTrim c = "" then .error .invalidInput
  else
    match provider c with
    | .error e => .error e
    | .ok [] => .error .noData
    | .ok (e :: _) => .ok e

/-- Model of EmbeddingService.generateBatchEmbeddings (embedding.ts:67-79):
clean every text, drop the ones that are empty after cleaning, return an empty
list without any provider call when none survive, and otherwise issue one
batched provider call whose row count must equal the cleaned-input count. -/
def generateBatchEmbeddings (provider : List String → Except Err (List Vec))
    (texts : List String) : Except Err (List Vec) :=
  let clean := (texts.map cleanText).filter (fun t => jsTrim t ≠ "")
  if clean.length = 0 then .ok []
  else
    match provider clean with
    | .error e => .error e
    | .ok data => if data.length ≠ clean.length then .error .batchLengthMismatch else .ok data

/-! ### JSON values

Language-model replies and stored keyword fields are JSON-shaped text.  The
pipeline decodes them with JSON.parse (through langchain for model replies);
the decoded value space is modelled by the Json type and JSON.parse for plain
strings by a small fueled parser. -/

/-- Decoded JSON value. -/
inductive Json where
  | null
  | bool (b : Bool)
  | num (q : ℚ)
  | str (s : String)
  | arr (elems : List Json)
  | obj (fields : List (String × Json))

/-- Whitespace skipped between JSON tokens. -/
def skipJsonWs (cs : List Char) : List Char :=
  cs.dropWhile (fun c => c = ' ' ∨ c = '\t' ∨ c = '\n' ∨ c = '\r')

/-- Value of one hexadecimal digit. -/
def hexVal (c : Char) : Option ℕ :=
  if '0' ≤ c ∧ c ≤ '9' then some (c.toNat - 48)
  else if 'a' ≤ c ∧ c ≤ 'f' then some (c.toNat - 87)
  else if 'A' ≤ c ∧ c ≤ 'F' then some (c.toNat - 55)
  else none

/-- Decode the body of a JSON string after the opening quote, handling the
standard escapes; returns the content and the rest after the closing quote. -/
def parseJsonStringChars : ℕ → List Char → Option (List Char × List Char)
  | 0, _ => none
  | fuel + 1, cs =>
    match cs with
    | [] => none
    | '"' :: rest => some ([], rest)
    | '\\' :: rest =>
      let dec : Option (Char × List Char) :=
        match rest with
        | [] => none
        | e :: rest2 =>
          if e = '"' then some ('"', rest2)
          else if e = '\\' then some ('\\', rest2)
          else if e = '/' then some ('/', rest2)
          else if e = 'b' then some ('\x08', rest2)
          else if e = 'f' then some ('\x0c', rest2)
          else if e = 'n' then some ('\n', rest2)
          else if e = 'r' then some ('\r', rest2)
          else if e = 't' then some ('\t', rest2)
          else if e = 'u' then
            match rest2 with
            | a :: b :: c :: d :: rest3 =>
              match hexVal a, hexVal b, hexVal c, hexVal d with
              | some ha, some hb, some hc, some hd =>
                some (Char.ofNat (((ha * 16 + hb) * 16 + hc) * 16 + hd), rest3)
              | _, _, _, _ => none
            | _ => none
          else none
      match dec with
      | some (c, r) =>
        match parseJsonStringChars fuel r with
        | some (out, r2) => some (c :: out, r2)
        | none => none
      | none => none
    | c :: rest =>
      match parseJsonStringChars fuel rest with
      | some (out, r2) => some (c :: out, r2)
      | none => none

/-- Digits prefix and the rest. -/
def takeDigits (cs : List Char) : List Char × List Char :=
  (cs.takeWhile Char.isDigit, cs.dropWhile Char.isDigit)

/-- Natural number denoted by a digit list. -/
def digitsToNat (ds : List Char) : ℕ :=
  ds.foldl (fun n c => n * 10 + (c.toNat - 48)) 0

/-- Parse a JSON number (sign, integer part, optional fraction and exponent). -/
def parseJsonNumber (cs : List Char) : Option (Json × List Char) :=
  let signed : Bool × List Char := match cs with
    | '-' :: r => (true, r)
    | _ => (false, cs)
  let ints := takeDigits signed.2
  if ints.1.isEmpty then none
  else
    let base : ℚ := (digitsToNat ints.1 : ℚ)
    let fracStep : Option (ℚ × List Char) := match ints.2 with
      | '.' :: r =>
        let fds := takeDigits r
        if fds.1.isEmpty then none
        else some ((digitsToNat fds.1 : ℚ) / (10 : ℚ) ^ fds.1.length, fds.2)
      | _ => some (0, ints.2)
    match fracStep with
    | none => none
    | some (frac, cs3) =>
      let expStep : Option (ℤ × List Char) := match cs3 with
        | c :: r =>
          if c = 'e' ∨ c = 'E' then
            let se : ℤ × List Char := match r with
              | '+' :: rr => (1, rr)
              | '-' :: rr => (-1, rr)
              | _ => (1, r)
            let eds := takeDigits se.2
            if eds.1.isEmpty then none else some (se.1 * (digitsToNat eds.1 : ℤ), eds.2)
          else some (0, cs3)
        | [] => some (0, cs3)
      match expStep with
      | none => none
      | some (ex, cs4) =>
        let mag : ℚ := (base + frac) * (10 : ℚ) ^ ex
        some (.num (if signed.1 then -mag else mag), cs4)

mutual

/-- Parse one JSON value; fuel bounds the recursion depth. -/
def parseJsonValue : ℕ → List Char → Option (Json × List Char)
  | 0, _ => none
  | fuel + 1, cs =>
    match skipJsonWs cs with
    | 'n' :: 'u' :: 'l' :: 'l' :: rest => some (.null, rest)
    | 't' :: 'r' :: 'u' :: 'e' :: rest => some (.bool true, rest)
    | 'f' :: 'a' :: 'l' :: 's' :: 'e' :: rest => some (.bool false, rest)
    | '"' :: rest =>
      match parseJsonStringChars (rest.length + 1) rest with
      | some (out, r) => some (.str (String.mk out), r)
      | none => none
    | '[' :: rest =>
      match skipJsonWs rest with
      | ']' :: r2 => some (.arr [], r2)
      | r2 =>
        match parseJsonElems fuel r2 with
        | some (xs, r3) => some (.arr xs, r3)
        | none => none
    | '\x7b' :: rest =>
      match skipJsonWs rest with
      | '\x7d' :: r2 => some (.obj [], r2)
      | r2 =>
        match parseJsonFields fuel r2 with
        | some (fs, r3) => some (.obj fs, r3)
        | none => none
    | c :: rest => if c.isDigit ∨ c = '-' then parseJsonNumber (c :: rest) else none
    | [] => none

/-- Parse the comma-separated elements of a JSON array up to the closing
bracket. -/
def parseJsonElems : ℕ → List Char → Option (List Json × List Char)
  | 0, _ => none
  | fuel + 1, cs =>
    match parseJsonValue fuel cs with
    | none => none
    | some (v, r) =>
      match skipJsonWs r with
      | ',' :: r2 =>
        match parseJsonElems fuel r2 with
        | some (vs, r3) => some (v :: vs, r3)
        | none => none
      | ']' :: r2 => some ([v], r2)
      | _ => none

/-- Parse the comma-separated members of a JSON object up to the closing
brace. -/
def parseJsonFields : ℕ → List Char → Option (List (String × Json) × List Char)
  | 0, _ => none
  | fuel + 1, cs =>
    match skipJsonWs cs with
    | '"' :: rest =>
      match parseJsonStringChars (rest.length + 1) rest with
      | none => none
      | some (k, r) =>
        match skipJsonWs r with
        | ':' :: r2 =>
          match parseJsonValue fuel r2 with
          | none => none
          | some (v, r3) =>
            match skipJsonWs r3 with
            | ',' :: r4 =>
              match parseJsonFields fuel r4 with
              | some (fs, r5) => some ((String.mk k, v) :: fs, r5)
              | none => none
            | '\x7d' :: r4 => some ([(String.mk k, v)], r4)
            | _ => none
        | _ => none
    | _ => none

end

/-- Model of JSON.parse: the whole input must be one JSON value. -/
def jsonParse (s : String) : Option Json :=
  match parseJsonValue (2 * s.length + 4) s.data with
  | some (j, rest) => if (skipJsonWs rest).isEmpty then some j else none
  | none => none

/-- Model of the JS String(v) coercion applied to decoded JSON array elements
(number printing approximated in decimal-free rational notation). -/
def jsonToString : Json → String
  | .null => "null"
  | .bool true => "true"
  | .bool false => "false"
  | .num q => if q.den = 1 then toString q.num else toString q
  | .str s => s
  | .arr xs => String.intercalate "," (xs.attach.map (fun x => jsonToString x.1))
  | .obj _ => "[object Object]"
termination_by j => sizeOf j
decreasing_by
  simp_wf
  have := List.sizeOf_lt_of_mem x.2
  omega

/-! ### Record Store Adapter (db_tooling.ts) -/

/-- Stored shape of the keywords column: a native string array, a string
needing permissive parsing, or absent. -/
inductive RawKeywords where
  | arr (ks : List String)
  | str (s : String)
  | null
  deriving DecidableEq, Repr

/-- Parsing of one keywords field (db_tooling.ts:170-183, and the identical
logic at embedding.ts:626-638): a native array is used as is; a string is
JSON-parsed and used when that yields an array, with elements coerced to
strings, otherwise comma-split; anything else contributes nothing. -/
def parseKeywordsField : RawKeywords → List String
  | .arr ks => ks
  | .str s =>
    match jsonParse s with
    | some (.arr xs) => xs.map jsonToString
    | some _ => s.splitOn ","
    | none => s.splitOn ","
  | .null => []

/-- Term normalization k.toLowerCase().trim() followed by collapsing internal
whitespace runs to one space, shared by aggregateKeywords (db_tooling.ts:168)
and the refinement tally (embedding.ts:623). -/
def normalizeKeyword (k : String) : String :=
  collapseWhitespace (jsTrim (jsToLower k))

/-- Lookup in an insertion-ordered association list, modelling Map.get. -/
def mapGet {α : Type} : List (String × α) → String → Option α
  | [], _ => none
  | (k, v) :: rest, key => if k = key then some v else mapGet rest key

/-- Update in an insertion-ordered association list, modelling Map.set: an
existing key keeps its position, a new key is appended. -/
def mapSet {α : Type} : List (String × α) → String → α → List (String × α)
  | [], key, v => [(key, v)]
  | (k, w) :: rest, key, v =>
    if k = key then (k, v) :: rest else (k, w) :: mapSet rest key v

/-- Increment of a counter map entry, the counts.set(kw, (counts.get(kw) || 0)
+ 1) step. -/
def bumpCount (m : List (String × ℕ)) (k : String) : List (String × ℕ) :=
  mapSet m k ((mapGet m k).getD 0 + 1)

/-- Insertion step of a stable descending-by-count sort. -/
def insertByCountDesc {α : Type} (x : α × ℕ) : List (α × ℕ) → List (α × ℕ)
  | [] => [x]
  | y :: ys => if y.2 < x.2 then x :: y :: ys else y :: insertByCountDesc x ys

/-- Stable sort by descending count, modelling the (stable) JS Array sort with
comparator (a, b) => b.count - a.count. -/
def sortByCountDesc {α : Type} (l : List (α × ℕ)) : List (α × ℕ) :=
  l.foldr insertByCountDesc []

/-- Insertion step of a stable ascending lexicographic sort on strings. -/
def insertStringAsc (x : String) : List String → List String
  | [] => [x]
  | y :: ys => if x < y then x :: y :: ys else y :: insertStringAsc x ys

/-- Stable ascending sort on strings, modelling the default JS Array sort used
on the day keys of the line chart. -/
def sortStringsAsc (l : List String) : List String :=
  l.foldr insertStringAsc []

/-- Model of DbTooling.aggregateKeywords (db_tooling.ts:151-207) after the
database fetch: rows are the keyword fields of the scanned records in
creation-time order.  Each term is normalized; with perRecordDedup a term
counts at most once per record; counting is in first-seen order; the result is
sorted by descending count (stably) and truncated to the limit. -/
def aggregateKeywords (rows : List RawKeywords) (limit : ℕ) (perRecordDedup : Bool) :
    List (String × ℕ) :=
  let counts := rows.foldl (fun counts row =>
    let kws := parseKeywordsField row
    if perRecordDedup then
      (kws.foldl (fun (acc : List (String × ℕ) × List String) kw0 =>
        let kw := normalizeKeyword kw0
        if kw = "" then acc
        else if kw ∈ acc.2 then acc
        else (bumpCount acc.1 kw, kw :: acc.2)) (counts, [])).1
    else
      kws.foldl (fun counts kw0 =>
        let kw := normalizeKeyword kw0
        if kw = "" then counts else bumpCount counts kw) counts) []
  (sortByCountDesc counts).take limit

/-- Candidate tally of refineKeywordsFromRecords (embedding.ts:622-653):
normalize and per-record-deduplicate the keyword fields of the matched
records, count in first-seen order, sort by descending count and keep the top
150.  The result only feeds the refinement prompt shown to the model. -/
def keywordTally (rows : List RawKeywords) : List (String × ℕ) :=
  let counts := rows.foldl (fun counts row =>
    let kws := parseKeywordsField row
    (kws.foldl (fun (acc : List (String × ℕ) × List String) kw0 =>
      let kw := normalizeKeyword kw0
      if kw = "" then acc
      else if kw ∈ acc.2 then acc
      else (bumpCount acc.1 kw, kw :: acc.2)) (counts, [])).1) []
  (sortByCountDesc counts).take 150

/-- One stored interaction row as selected by fetchQueries (db_tooling.ts:99-108). -/
structure QueryRecord where
  id : String
  user_id : String
  prompt : Option String
  response : Option String
  prompt_embedding : Option Vec
  response_embedding : Option Vec
  created_at : String
  keywords : RawKeywords
  deriving DecidableEq, Repr

/-! ### Query Planner (Agent.decidePlan, embedding.ts:693-726) -/

/-- Chart kind of the agent result. -/
inductive GraphType where
  | pie
  | line
  | bar
  deriving DecidableEq, Repr

/-- Text field searched by the pipeline. -/
inductive UsedField where
  | prompt
  | response
  deriving DecidableEq, Repr

/-- Structured plan decoded from the planner reply. -/
structure Plan where
  graphType : GraphType
  usedField : UsedField
  keywords : List String
  deriving DecidableEq, Repr

/-- Field lookup on a decoded JSON object. -/
def objGet (j : Json) (key : String) : Option Json :=
  match j with
  | .obj fields => mapGet fields key
  | _ => none

/-- String content of a JSON value. -/
def asString : Json → Option String
  | .str s => some s
  | _ => none

/-- String list content of a JSON array of strings. -/
def asStringList : Json → Option (List String)
  | .arr xs => xs.mapM asString
  | _ => none

/-- Schema validation of the planner reply, modelling the zod schema at
embedding.ts:694-700: graphType must be the enum pie or line, usedField the
enum prompt or response, keywords an array of at most 20 strings.  Extra
fields are ignored, as zod objects strip unknown keys. -/
def validatePlan (j : Json) : Option Plan := do
  let gtj ← objGet j "graphType"
  let gts ← asString gtj
  let gt ←
    if gts = "pie" then some GraphType.pie
    else if gts = "line" then some GraphType.line
    else none
  let ufj ← objGet j "usedField"
  let ufs ← asString ufj
  let uf ←
    if ufs = "prompt" then some UsedField.prompt
    else if ufs = "response" then some UsedField.response
    else none
  let kwj ← objGet j "keywords"
  let ks ← asStringList kwj
  if ks.length ≤ 20 then some { graphType := gt, usedField := uf, keywords := ks }
  else none

/-- Model of Agent.decidePlan (embedding.ts:693-726) after the model call
returned: the argument is the decoded reply, none when the reply text was not
valid JSON.  A reply failing schema validation, like undecodable text, lands
in the catch and yields the fallback plan; the function is total, so this
stage raises nothing to its caller. -/
def decidePlan (modelReply : Option Json) : Plan :=
  match modelReply.bind validatePlan with
  | some p => p
  | none => { graphType := .pie, usedField := .prompt, keywords := [] }

/-- Schema validation of the refinement reply, modelling the zod schema at
embedding.ts:657-659: keywords must be an array of at most maxKeywords
strings. -/
def validateRefine (maxKeywords : ℕ) (j : Json) : Option (List String) := do
  let kwj ← objGet j "keywords"
  let ks ← asStringList kwj
  if ks.length ≤ maxKeywords then some ks else none

/-- First-occurrence deduplication, modelling insertion into a JS Set. -/
def dedupeFirst {α : Type} [DecidableEq α] (l : List α) : List α :=
  l.foldl (fun acc x => if x ∈ acc then acc else acc ++ [x]) []

/-- Model of Agent.refineKeywordsFromRecords (embedding.ts:613-691).  The
candidate tally (keywordTally of the matched records) only feeds the prompt
sent to the language model; modelReply is the decoded reply of that call,
none when the call failed or its text was not valid JSON.  Any failure of the
call or of schema validation lands in the catch and returns the empty list;
otherwise the reply keywords are lower-cased, trimmed, cleared of empties,
deduplicated in Set insertion order and truncated to maxKeywords. -/
def refineKeywordsFromRecords (records : List QueryRecord)
    (modelReply : Option Json) (maxKeywords : ℕ) : List String :=
  if records.length = 0 then []
  else
    match modelReply.bind (validateRefine maxKeywords) with
    | none => []
    | some ks =>
      (dedupeFirst ((ks.map (fun k => jsTrim (jsToLower k))).filter (fun k => k ≠ ""))).take
        maxKeywords

/-! ### Matching Engine (Agent.run and Agent.search, embedding.ts:485-611) -/

/-- Construction of the term-to-embedding Map (embedding.ts:511-513 and
545-546): keyTerms.forEach((t, i) => map.set(t, embeddings[i])); an index
beyond the embedding list leaves the JS value undefined, modelled as none. -/
def buildTermMap (terms : List String) (embs : List Vec) : List (String × Option Vec) :=
  terms.enum.foldl (fun m p => mapSet m p.2 embs[p.1]?) []

/-- Model of Agent.search (embedding.ts:728-745): with no query terms every
candidate matches under the single synthetic term "all"; otherwise the term
embeddings are run through batchThresholdSearch at the agent threshold and
zipped back onto the terms, missing rows defaulting to empty.  An undefined
term embedding surfaces as the JS TypeError it would raise inside the
similarity loop, modelled as Err.undefinedValue. -/
noncomputable def search (cfg : MatchingConfig) (threshold : ℚ)
    (termToEmbedding : List (String × Option Vec)) (candidateEmbeddings : List Vec) :
    Except Err (List (String × List ℕ)) :=
  if termToEmbedding.isEmpty then
    .ok [("all", List.range candidateEmbeddings.length)]
  else
    match termToEmbedding.mapM (fun p =>
      match p.2 with
      | some v => Except.ok (ε := Err) v
      | none => Except.error Err.undefinedValue) with
    | .error e => .error e
    | .ok embeddings =>
      match batchThresholdSearch cfg embeddings candidateEmbeddings (some threshold) with
      | .error e => .error e
      | .ok matchRows =>
        .ok ((termToEmbedding.map Prod.fst).enum.map
          (fun p => (p.2, (matchRows[p.1]?).getD [])))

/-- Outcome of the two matching passes of Agent.run. -/
structure MatchOutcome where
  matchedMapFirst : List (String × List ℕ)
  matchedIndicesFirst : List ℕ
  finalMatchedMap : List (String × List ℕ)
  finalMatchedIndices : List ℕ
  refinementRan : Bool
  deriving DecidableEq, Repr

/-- Model of the matching stage of Agent.run (embedding.ts:507-560): embed the
plan keywords (keyTerms stays empty when the plan has none, so the provider is
never called for them), run the broad search over every candidate, and — when
the language model produced refined keywords and the broad pass matched at
least one candidate — embed the refined keywords, search again restricted to
the embeddings of the broad matches, and map the relative indices back through
matchedIndicesFirst.  refinedKeywords is the result of
refineKeywordsFromRecords on the broad matches; provider models the embedding
endpoint.  No failure of the refinement embedding call is caught in the
source: it propagates out of the whole stage. -/
noncomputable def runMatchStage (cfg : MatchingConfig) (threshold : ℚ)
    (provider : List String → Except Err (List Vec))
    (keywords refinedKeywords : List String)
    (candidateEmbeddings : List Vec) : Except Err MatchOutcome :=
  match generateBatchEmbeddings provider keywords with
  | .error e => .error e
  | .ok keywordEmbeddings =>
    let termToEmbedding := buildTermMap keywords keywordEmbeddings
    match search cfg threshold termToEmbedding candidateEmbeddings with
    | .error e => .error e
    | .ok matchedMapFirst =>
      let matchedIndicesFirst := dedupeFirst (matchedMapFirst.map Prod.snd).flatten
      if 0 < refinedKeywords.length ∧ 0 < matchedIndicesFirst.length then
        match generateBatchEmbeddings provider refinedKeywords with
        | .error e => .error e
        | .ok refinedEmbeddings =>
          let refinedTermToEmbedding := buildTermMap refinedKeywords refinedEmbeddings
          let subsetEmbeddings := matchedIndicesFirst.map
            (fun idx => candidateEmbeddings.getD idx [])
          match search cfg threshold refinedTermToEmbedding subsetEmbeddings with
          | .error e => .error e
          | .ok matchedMapSecondRel =>
            let matchedMapSecond := matchedMapSecondRel.map (fun p =>
              (p.1, p.2.map (fun rel => matchedIndicesFirst.getD rel 0)))
            .ok { matchedMapFirst := matchedMapFirst,
                  matchedIndicesFirst := matchedIndicesFirst,
                  finalMatchedMap := matchedMapSecond,
                  finalMatchedIndices := dedupeFirst (matchedMapSecond.map Prod.snd).flatten,
                  refinementRan := true }
      else
        .ok { matchedMapFirst := matchedMapFirst,
              matchedIndicesFirst := matchedIndicesFirst,
              finalMatchedMap := matchedMapFirst,
              finalMatchedIndices := matchedIndicesFirst,
              refinementRan := false }

/-! ### Aggregator and SegmentIndex (embedding.ts:563-597 and 828-879) -/

/-- Filler record used to totalize JS array indexing; a MatchMap produced by
the pipeline holds only in-range indices and never reaches it. -/
def defaultRecord : QueryRecord :=
  { id := "", user_id := "", prompt := none, response := none,
    prompt_embedding := none, response_embedding := none,
    created_at := "", keywords := .null }

/-- Record behind a matched candidate index: records[candidates[idx].i]. -/
def recAt (records : List QueryRecord) (candidates : List (ℕ × Vec)) (idx : ℕ) :
    QueryRecord :=
  records.getD (candidates.getD idx (0, [])).1 defaultRecord

/-- Day bucket key of a record: (rec.created_at || empty).slice(0, 10). -/
def dayOf (r : QueryRecord) : String := String.mk (r.created_at.data.take 10)

/-- Group key of a record for the bar chart: rec.user_id, or unknown when
falsy. -/
def userOf (r : QueryRecord) : String :=
  if r.user_id = "" then "unknown" else r.user_id

/-- Append of one record id under a term, the lineMap[day][term].push(rec.id)
step (embedding.ts:580-581, 592-593). -/
def pushInner (inner : List (String × List String)) (term id : String) :
    List (String × List String) :=
  mapSet inner term ((mapGet inner term).getD [] ++ [id])

/-- Nested per-group per-term counters of generateGraphDataFromMatches
(embedding.ts:843-852 for line with the day key, 862-871 for bar with the
user key): one walk over the MatchMap entries and their indices, incrementing
the counter of (key, term). -/
def groupedCounts (keyOf : QueryRecord → String) (mm : List (String × List ℕ))
    (records : List QueryRecord) (candidates : List (ℕ × Vec)) :
    List (String × List (String × ℕ)) :=
  mm.foldl (fun m p =>
    p.2.foldl (fun m idx =>
      let key := keyOf (recAt records candidates idx)
      mapSet m key (bumpCount ((mapGet m key).getD []) p.1)) m) []

/-- Nested per-group per-term record-id lists of the segment index build in
Agent.run (embedding.ts:573-597): the same walk as groupedCounts, pushing the
record id instead of incrementing. -/
def groupedSegments (keyOf : QueryRecord → String) (mm : List (String × List ℕ))
    (records : List QueryRecord) (candidates : List (ℕ × Vec)) :
    List (String × List (String × List String)) :=
  mm.foldl (fun m p =>
    p.2.foldl (fun m idx =>
      let r := recAt records candidates idx
      let key := keyOf r
      mapSet m key (pushInner ((mapGet m key).getD []) p.1 r.id)) m) []

/-- Per-term match counters of the pie chart (embedding.ts:836-837). -/
def pieCounts (mm : List (String × List ℕ)) : List (String × ℕ) :=
  mm.foldl (fun m p => mapSet m p.1 p.2.length) []

/-- Pie chart data (embedding.ts:835-841): per-term counts sorted by
descending count. -/
def pieData (mm : List (String × List ℕ)) : List (String × ℕ) :=
  sortByCountDesc (pieCounts mm)

/-- Line chart data (embedding.ts:843-859): one datum per day in ascending
day order, each carrying the per-term counts of that day sorted by descending
count. -/
def lineData (mm : List (String × List ℕ)) (records : List QueryRecord)
    (candidates : List (ℕ × Vec)) : List (String × List (String × ℕ)) :=
  let counts := groupedCounts dayOf mm records candidates
  (sortStringsAsc (counts.map Prod.fst)).map
    (fun day => (day, sortByCountDesc ((mapGet counts day).getD [])))

/-- Bar chart data (embedding.ts:862-878): one datum per user group in
insertion order, each carrying that group's per-term counts sorted by
descending count. -/
def barData (mm : List (String × List ℕ)) (records : List QueryRecord)
    (candidates : List (ℕ × Vec)) : List (String × List (String × ℕ)) :=
  (groupedCounts userOf mm records candidates).map
    (fun p => (p.1, sortByCountDesc p.2))

/-- Pie segment index (embedding.ts:567-572): term to contributing record
ids. -/
def pieSegments (mm : List (String × List ℕ)) (records : List QueryRecord)
    (candidates : List (ℕ × Vec)) : List (String × List String) :=
  mm.foldl (fun m p =>
    mapSet m p.1 (p.2.map (fun idx => (recAt records candidates idx).id))) []

/-- Line segment index (embedding.ts:573-584): day to term to record ids. -/
def lineSegments (mm : List (String × List ℕ)) (records : List QueryRecord)
    (candidates : List (ℕ × Vec)) : List (String × List (String × List String)) :=
  groupedSegments dayOf mm records candidates

/-- Bar segment index (embedding.ts:585-597): user group to term to record
ids. -/
def barSegments (mm : List (String × List ℕ)) (records : List QueryRecord)
    (candidates : List (ℕ × Vec)) : List (String × List (String × List String)) :=
  groupedSegments userOf mm records candidates

/-! ### Auxiliary notions used by the statements and proofs -/

/-- Value map over an association list, keys unchanged. -/
def mapVals {α β : Type} (f : α → β) (m : List (String × α)) : List (String × β) :=
  m.map (fun p => (p.1, f p.2))

/-- Keys of an association list are pairwise distinct, the invariant every JS
Map satisfies. -/
def NodupKeys {α : Type} (m : List (String × α)) : Prop :=
  (m.map Prod.fst).Nodup

/-- Decidable equality on Except results, used to evaluate concrete runs. -/
instance {ε α : Type} [DecidableEq ε] [DecidableEq α] : DecidableEq (Except ε α) :=
  fun a b =>
    match a, b with
    | .error e1, .error e2 =>
      if h : e1 = e2 then isTrue (by rw [h]) else isFalse (by simp [h])
    | .ok v1, .ok v2 =>
      if h : v1 = v2 then isTrue (by rw [h]) else isFalse (by simp [h])
    | .error _, .ok _ => isFalse (by simp)
    | .ok _, .error _ => isFalse (by simp)

/-- Embedding endpoint stub that answers every text with the zero vector. -/
def provOkZero : List String → Except Err (List Vec) :=
  fun ts => .ok (ts.map (fun _ => ([0] : Vec)))

/-- Embedding endpoint stub that fails exactly on the batch [b], modelling a
provider outage hitting the refinement call only. -/
def provFailOnB : List String → Except Err (List Vec) :=
  fun ts => if ts = ["b"] then .error .providerFailure
            else .ok (ts.map (fun _ => ([0] : Vec)))

/-! ### Basic lemmas about the Similarity Matcher -/

theorem sumSquares_nonneg (a : Vec) : 0 ≤ sumSquares a := by
  unfold sumSquares
  apply List.sum_nonneg
  intro x hx
  rcases List.mem_map.mp hx with ⟨y, _, rfl⟩
  exact mul_self_nonneg y

theorem sqrt_sumSquares_eq_zero_iff (a : Vec) :
    Real.sqrt (sumSquares a) = 0 ↔ sumSquares a = 0 := by
  rw [Real.sqrt_eq_zero']
  constructor
  · intro h
    have h0 : (0 : ℝ) ≤ (sumSquares a : ℝ) := by exact_mod_cast sumSquares_nonneg a
    exact_mod_cast le_antisymm h h0
  · intro h
    rw [h]
    norm_num

/-- C9: cosine similarity is total on equal-length vectors: whenever either
vector has zero magnitude (the square root of its square-sum is 0), the
zero-norm guard fires before the division and the similarity returned is
exactly 0 — no division by zero, no undefined value, no error. -/
theorem cosineSimilarity_zero_magnitude (a b : Vec) (hlen : a.length = b.length)
    (hz : Real.sqrt (sumSquares a) = 0 ∨ Real.sqrt (sumSquares b) = 0) :
    cosineSimilarity a b = .ok 0 := by
  have hz2 : sumSquares a = 0 ∨ sumSquares b = 0 := by
    rcases hz with h | h
    · exact Or.inl ((sqrt_sumSquares_eq_zero_iff a).mp h)
    · exact Or.inr ((sqrt_sumSquares_eq_zero_iff b).mp h)
  unfold cosineSimilarity
  rw [if_neg (by omega), if_pos hz2]

/-- Witness for C9 at the zero vector. -/
theorem cosineSimilarity_zero_magnitude_witness :
    cosineSimilarity [(0 : ℚ)] [(0 : ℚ)] = .ok 0 :=
  cosineSimilarity_zero_magnitude [(0 : ℚ)] [(0 : ℚ)] rfl
    (Or.inl (by
      have h : sumSquares [(0 : ℚ)] = 0 := by norm_num [sumSquares]
      rw [h]
      norm_num))

/-- C10: tuneThreshold is not a pure report: whenever it returns, the matcher
configuration it leaves behind — the value getThreshold reads and every later
call without an explicit threshold falls back to — carries exactly the
optimalThreshold of the returned report.  A positive sweep step is assumed,
since the source loop would not return otherwise. -/
theorem tuneThreshold_sets_active_threshold (cfg : MatchingConfig)
    (pairs : List LabeledPair) (o : OptimizeFor) (range : ThresholdRange)
    (res : ThresholdTuningResult) (cfg2 : MatchingConfig)
    (_hstep : 0 < range.step)
    (h : tuneThreshold cfg pairs o range = .ok (res, cfg2)) :
    getThreshold cfg2 = res.optimalThreshold := by
  unfold tuneThreshold at h
  cases hm : pairs.mapM (fun p =>
      (cosineSimilarity p.embedding1 p.embedding2).map (fun s => SimLabel.mk s p.isRelated)) with
  | error e => rw [hm] at h; exact absurd h (by simp)
  | ok sims =>
    rw [hm] at h
    simp only [Except.ok.injEq, Prod.mk.injEq] at h
    obtain ⟨hres, hcfg⟩ := h
    subst hres
    subst hcfg
    rfl

/-- Witness for C10 on an empty labeled set and a one-point sweep range that
the loop skips (min above max), leaving the initial best threshold. -/
theorem tuneThreshold_sets_active_threshold_witness :
    getThreshold ⟨1⟩ =
      ThresholdTuningResult.optimalThreshold ⟨1, 0, 0, 0⟩ :=
  tuneThreshold_sets_active_threshold ⟨1/5⟩ [] .f1 ⟨1, 0, 1⟩ ⟨1, 0, 0, 0⟩ ⟨1⟩
    (by norm_num)
    (by
      have hm : List.mapM (fun p =>
          (cosineSimilarity p.embedding1 p.embedding2).map
            (fun s => SimLabel.mk s p.isRelated)) ([] : List LabeledPair) =
          Except.ok [] := rfl
      have hsweep : sweepThresholds 1 0 1 = [] := by decide
      unfold tuneThreshold
      rw [hm]
      simp only [hsweep, List.foldl_nil])

/-- C5: a planner reply that fails to decode into JSON or to validate against
the Plan schema yields the fallback plan (pie, prompt, no keywords); since
decidePlan is a total function into Plan, no error reaches its caller from
that path. -/
theorem decidePlan_fallback (modelReply : Option Json)
    (h : modelReply.bind validatePlan = none) :
    decidePlan modelReply = { graphType := .pie, usedField := .prompt, keywords := [] } := by
  unfold decidePlan
  rw [h]

/-- Witness for C5 on a reply that is a bare JSON string, which violates the
Plan schema. -/
theorem decidePlan_fallback_witness :
    decidePlan (some (.str "not a plan")) =
      { graphType := .pie, usedField := .prompt, keywords := [] } :=
  decidePlan_fallback (some (.str "not a plan")) rfl

/-- C7: aggregateKeywords with per-record deduplication on the five-record
scenario — three records tagged [billing], one tagged [billing, onboarding],
one untagged — counts billing four times and onboarding once, sorted by
descending count. -/
theorem aggregateKeywords_scenario :
    aggregateKeywords
      [.arr ["billing"], .arr ["billing"], .arr ["billing"],
       .arr ["billing", "onboarding"], .arr []] 100 true =
      [("billing", 4), ("onboarding", 1)] := by
  decide

/-- C8 counterexample: the batch embed operation does not fail on an input
that is empty after normalization — the input is silently dropped and the
call returns an empty result.  The provider stub used here always fails, so
the .ok result also shows no provider call was issued. -/
theorem generateBatchEmbeddings_drops_empty_input :
    generateBatchEmbeddings (fun _ => .error .providerFailure) [" "] = .ok [] := by
  decide

/-- C8 amended: a single-embed input that is empty after normalization fails
with the invalid-input error, while the batch embed operation filters such
inputs out before calling the provider and returns the empty list without
error when none survive. -/
theorem embed_empty_after_normalization
    (ps : String → Except Err (List Vec))
    (pb : List String → Except Err (List Vec))
    (t : String) (texts : List String)
    (ht : jsTrim (cleanText t) = "")
    (hts : ∀ x ∈ texts, jsTrim (cleanText x) = "") :
    generateEmbedding ps t = .error .invalidInput ∧
    generateBatchEmbeddings pb texts = .ok [] := by
  constructor
  · unfold generateEmbedding
    rw [if_pos ht]
  · unfold generateBatchEmbeddings
    have hclean : (texts.map cleanText).filter (fun t => jsTrim t ≠ "") = [] := by
      rw [List.filter_eq_nil_iff]
      intro a ha
      rcases List.mem_map.mp ha with ⟨x, hx, rfl⟩
      simp [hts x hx]
    rw [hclean]
    rfl

/-- Witness for C8 amended on the empty string and a whitespace-only batch. -/
theorem embed_empty_after_normalization_witness :
    generateEmbedding (fun _ => .error .providerFailure) "" = .error .invalidInput ∧
    generateBatchEmbeddings (fun _ => .error .providerFailure) [" "] = .ok [] :=
  embed_empty_after_normalization _ _ "" [" "] (by decide) (by decide)

/-! ### Monotonicity of threshold search (C6) -/

theorem thresholdScan_antitone (q : Vec) (t1 t2 : ℚ) (hle : t1 ≤ t2) :
    ∀ (cs : List Vec) (i : ℕ) (l1 l2 : List ℕ),
      thresholdScan q t1 i cs = .ok l1 → thresholdScan q t2 i cs = .ok l2 → l2 ⊆ l1 := by
  intro cs
  induction cs with
  | nil =>
    intro i l1 l2 h1 h2
    simp only [thresholdScan] at h1 h2
    injection h1 with h1
    injection h2 with h2
    subst h1
    subst h2
    exact fun x hx => hx
  | cons c rest ih =>
    intro i l1 l2 h1 h2
    simp only [thresholdScan] at h1 h2
    cases hsim : cosineSimilarity q c with
    | error e => simp only [hsim] at h1; exact absurd h1 (by simp)
    | ok sim =>
      simp only [hsim] at h1 h2
      cases hs1 : thresholdScan q t1 (i + 1) rest with
      | error e => simp only [hs1] at h1; exact absurd h1 (by simp)
      | ok tl1 =>
        cases hs2 : thresholdScan q t2 (i + 1) rest with
        | error e => simp only [hs2] at h2; exact absurd h2 (by simp)
        | ok tl2 =>
          simp only [hs1] at h1
          simp only [hs2] at h2
          have hsub : tl2 ⊆ tl1 := ih (i + 1) tl1 tl2 hs1 hs2
          by_cases hc2 : (t2 : ℝ) ≤ sim
          · have hc1 : (t1 : ℝ) ≤ sim := le_trans (by exact_mod_cast hle) hc2
            rw [if_pos hc1] at h1
            rw [if_pos hc2] at h2
            injection h1 with h1
            injection h2 with h2
            subst h1
            subst h2
            exact List.cons_subset_cons i hsub
          · rw [if_neg hc2] at h2
            injection h2 with h2
            subst h2
            by_cases hc1 : (t1 : ℝ) ≤ sim
            · rw [if_pos hc1] at h1
              injection h1 with h1
              subst h1
              exact hsub.trans (List.subset_cons_self i tl1)
            · rw [if_neg hc1] at h1
              injection h1 with h1
              subst h1
              exact hsub

theorem scanRows_antitone (t1 t2 : ℚ) (cs : List Vec) (hle : t1 ≤ t2) :
    ∀ (qs : List Vec) (out1 out2 : List (List ℕ)),
      scanRows t1 cs qs = .ok out1 → scanRows t2 cs qs = .ok out2 →
      ∀ (k : ℕ) (r1 r2 : List ℕ), out1[k]? = some r1 → out2[k]? = some r2 → r2 ⊆ r1 := by
  intro qs
  induction qs with
  | nil =>
    intro out1 out2 h1 h2 k r1 r2 hk1 hk2
    simp only [scanRows] at h1
    injection h1 with h1
    subst h1
    simp at hk1
  | cons q rest ih =>
    intro out1 out2 h1 h2 k r1 r2 hk1 hk2
    simp only [scanRows] at h1 h2
    cases hs1 : thresholdScan q t1 0 cs with
    | error e => simp only [hs1] at h1; exact absurd h1 (by simp)
    | ok row1 =>
      simp only [hs1] at h1
      cases hr1 : scanRows t1 cs rest with
      | error e => simp only [hr1] at h1; exact absurd h1 (by simp)
      | ok rows1 =>
        simp only [hr1] at h1
        injection h1 with h1
        subst h1
        cases hs2 : thresholdScan q t2 0 cs with
        | error e => simp only [hs2] at h2; exact absurd h2 (by simp)
        | ok row2 =>
          simp only [hs2] at h2
          cases hr2 : scanRows t2 cs rest with
          | error e => simp only [hr2] at h2; exact absurd h2 (by simp)
          | ok rows2 =>
            simp only [hr2] at h2
            injection h2 with h2
            subst h2
            cases k with
            | zero =>
              simp only [List.getElem?_cons_zero, Option.some.injEq] at hk1 hk2
              subst hk1
              subst hk2
              exact thresholdScan_antitone q t1 t2 hle cs 0 _ _ hs1 hs2
            | succ n =>
              simp only [List.getElem?_cons_succ] at hk1 hk2
              exact ih rows1 rows2 hr1 hr2 n r1 r2 hk1 hk2

/-- C6: batch threshold search is antitone in the threshold: for every query
list, candidate list and thresholds t1 ≤ t2, each per-query match set returned
at t2 is contained in the one returned at t1. -/
theorem batchThresholdSearch_antitone (cfg : MatchingConfig) (qs cs : List Vec)
    (t1 t2 : ℚ) (out1 out2 : List (List ℕ)) (hle : t1 ≤ t2)
    (h1 : batchThresholdSearch cfg qs cs (some t1) = .ok out1)
    (h2 : batchThresholdSearch cfg qs cs (some t2) = .ok out2)
    (k : ℕ) (r1 r2 : List ℕ) (hk1 : out1[k]? = some r1) (hk2 : out2[k]? = some r2) :
    r2 ⊆ r1 := by
  simp only [batchThresholdSearch, Option.getD_some] at h1 h2
  exact scanRows_antitone t1 t2 cs hle qs out1 out2 h1 h2 k r1 r2 hk1 hk2

/-! ### Concrete evaluations of the matcher on zero vectors -/

theorem cosine_zero_eval : cosineSimilarity [(0 : ℚ)] [(0 : ℚ)] = .ok 0 := by
  unfold cosineSimilarity
  rw [if_neg (by simp), if_pos (Or.inl (by norm_num [sumSquares]))]

theorem thresholdScan_zero_le (t : ℚ) (h : (t : ℝ) ≤ 0) :
    thresholdScan [(0 : ℚ)] t 0 [[(0 : ℚ)]] = .ok [0] := by
  simp only [thresholdScan, cosine_zero_eval]
  rw [if_pos h]

theorem thresholdScan_zero_notle (t : ℚ) (h : ¬ (t : ℝ) ≤ 0) :
    thresholdScan [(0 : ℚ)] t 0 [[(0 : ℚ)]] = .ok [] := by
  simp only [thresholdScan, cosine_zero_eval]
  rw [if_neg h]

theorem batch_zero_t0 :
    batchThresholdSearch ⟨1/5⟩ [[(0 : ℚ)]] [[(0 : ℚ)]] (some 0) = .ok [[0]] := by
  simp only [batchThresholdSearch, Option.getD_some, scanRows,
    thresholdScan_zero_le 0 (by norm_num)]

theorem batch_zero_t1 :
    batchThresholdSearch ⟨1/5⟩ [[(0 : ℚ)]] [[(0 : ℚ)]] (some 1) = .ok [[]] := by
  simp only [batchThresholdSearch, Option.getD_some, scanRows,
    thresholdScan_zero_notle 1 (by norm_num)]

/-- Witness for C6 at thresholds 0 and 1 over a singleton zero-vector pool. -/
theorem batchThresholdSearch_antitone_witness : ([] : List ℕ) ⊆ [0] :=
  batchThresholdSearch_antitone ⟨1/5⟩ [[(0 : ℚ)]] [[(0 : ℚ)]] 0 1 [[0]] [[]]
    (by norm_num) batch_zero_t0 batch_zero_t1 0 [0] [] rfl rfl

/-! ### Index bounds of the matching passes -/

theorem generateBatchEmbeddings_nil (g : List String → Except Err (List Vec)) :
    generateBatchEmbeddings g [] = .ok [] := rfl

theorem thresholdScan_index_lt (q : Vec) (t : ℚ) :
    ∀ (cs : List Vec) (i : ℕ) (l : List ℕ), thresholdScan q t i cs = .ok l →
      ∀ j ∈ l, j < i + cs.length := by
  intro cs
  induction cs with
  | nil =>
    intro i l h j hj
    simp only [thresholdScan] at h
    injection h with h
    subst h
    simp at hj
  | cons c rest ih =>
    intro i l h j hj
    simp only [thresholdScan] at h
    cases hsim : cosineSimilarity q c with
    | error e => simp only [hsim] at h; exact absurd h (by simp)
    | ok sim =>
      simp only [hsim] at h
      cases hs : thresholdScan q t (i + 1) rest with
      | error e => simp only [hs] at h; exact absurd h (by simp)
      | ok tail =>
        simp only [hs] at h
        have htail := ih (i + 1) tail hs
        by_cases hc : (t : ℝ) ≤ sim
        · rw [if_pos hc] at h
          injection h with h
          subst h
          rcases List.mem_cons.mp hj with rfl | hj2
          · simp only [List.length_cons]
            omega
          · have := htail j hj2
            simp only [List.length_cons]
            omega
        · rw [if_neg hc] at h
          injection h with h
          subst h
          have := htail j hj
          simp only [List.length_cons]
          omega

theorem scanRows_row_mem (t : ℚ) (cs : List Vec) :
    ∀ (qs : List Vec) (rows : List (List ℕ)), scanRows t cs qs = .ok rows →
      ∀ row ∈ rows, ∃ q, thresholdScan q t 0 cs = .ok row := by
  intro qs
  induction qs with
  | nil =>
    intro rows h row hrow
    simp only [scanRows] at h
    injection h with h
    subst h
    simp at hrow
  | cons q rest ih =>
    intro rows h row hrow
    simp only [scanRows] at h
    cases hs : thresholdScan q t 0 cs with
    | error e => simp only [hs] at h; exact absurd h (by simp)
    | ok row1 =>
      simp only [hs] at h
      cases hr : scanRows t cs rest with
      | error e => simp only [hr] at h; exact absurd h (by simp)
      | ok rows1 =>
        simp only [hr] at h
        injection h with h
        subst h
        rcases List.mem_cons.mp hrow with rfl | hrow2
        · exact ⟨q, hs⟩
        · exact ih rows1 hr row hrow2

theorem search_index_lt (cfg : MatchingConfig) (t : ℚ)
    (m : List (String × Option Vec)) (ces : List Vec) (mm : List (String × List ℕ))
    (h : search cfg t m ces = .ok mm) :
    ∀ p ∈ mm, ∀ j ∈ p.2, j < ces.length := by
  unfold search at h
  by_cases he : m.isEmpty
  · rw [if_pos he] at h
    injection h with h
    subst h
    intro p hp j hj
    rcases List.mem_singleton.mp hp with rfl
    exact List.mem_range.mp hj
  · rw [if_neg he] at h
    cases hme : m.mapM (fun p =>
        match p.2 with
        | some v => Except.ok (ε := Err) v
        | none => Except.error Err.undefinedValue) with
    | error e => simp only [hme] at h; exact absurd h (by simp)
    | ok embeddings =>
      simp only [hme] at h
      cases hb : batchThresholdSearch cfg embeddings ces (some t) with
      | error e => simp only [hb] at h; exact absurd h (by simp)
      | ok rows =>
        simp only [hb] at h
        injection h with h
        subst h
        intro p hp j hj
        rcases List.mem_map.mp hp with ⟨pr, _, rfl⟩
        cases hrow : rows[pr.1]? with
        | none => rw [hrow] at hj; simp at hj
        | some row =>
          rw [hrow] at hj
          simp only [Option.getD_some] at hj
          have hrmem : row ∈ rows := List.getElem?_mem hrow
          simp only [batchThresholdSearch, Option.getD_some] at hb
          rcases scanRows_row_mem t ces embeddings rows hb row hrmem with ⟨q, hq⟩
          have := thresholdScan_index_lt q t ces 0 row hq j hj
          omega

theorem mem_dedupeFirst {α : Type} [DecidableEq α] (l : List α) (x : α) :
    x ∈ dedupeFirst l ↔ x ∈ l := by
  have aux : ∀ (l acc : List α),
      x ∈ l.foldl (fun acc x => if x ∈ acc then acc else acc ++ [x]) acc ↔
        x ∈ acc ∨ x ∈ l := by
    intro l
    induction l with
    | nil => intro acc; simp
    | cons y ys ih =>
      intro acc
      simp only [List.foldl_cons]
      by_cases hy : y ∈ acc
      · rw [if_pos hy, ih]
        constructor
        · rintro (h | h)
          · exact Or.inl h
          · exact Or.inr (List.mem_cons_of_mem _ h)
        · rintro (h | h)
          · exact Or.inl h
          · rcases List.mem_cons.mp h with rfl | h2
            · exact Or.inl hy
            · exact Or.inr h2
      · rw [if_neg hy, ih]
        simp only [List.mem_append, List.mem_cons, List.mem_singleton]
        tauto
  unfold dedupeFirst
  rw [aux]
  simp

/-! ### Broad pass with empty keywords (C2) -/

/-- C2: with an empty plan keyword set, the broad pass of the matching stage
yields the MatchMap with exactly one term, "all", mapped to every candidate
index, and the batch embedding operation on the empty keyword list returns
the empty list identically for every provider — no embedding call is issued
for keyword terms (the source returns before touching the client). -/
theorem broad_pass_all (cfg : MatchingConfig) (t : ℚ)
    (provider : List String → Except Err (List Vec)) (rkw : List String)
    (ces : List Vec) (out : MatchOutcome)
    (h : runMatchStage cfg t provider [] rkw ces = .ok out) :
    out.matchedMapFirst = [("all", List.range ces.length)] ∧
    ∀ g : List String → Except Err (List Vec), generateBatchEmbeddings g [] = .ok [] := by
  refine ⟨?_, fun g => rfl⟩
  unfold runMatchStage at h
  have hgen : generateBatchEmbeddings provider [] = .ok [] := rfl
  simp only [hgen] at h
  have hsearch : search cfg t (buildTermMap [] []) ces =
      .ok [("all", List.range ces.length)] := rfl
  simp only [hsearch] at h
  split at h
  · cases hg2 : generateBatchEmbeddings provider rkw with
    | error e => simp only [hg2] at h; exact absurd h (by simp)
    | ok rembs =>
      simp only [hg2] at h
      cases hs2 : search cfg t (buildTermMap rkw rembs)
          ((dedupeFirst (([("all", List.range ces.length)].map Prod.snd).flatten)).map
            (fun idx => ces.getD idx [])) with
      | error e => simp only [hs2] at h; exact absurd h (by simp)
      | ok mm2 =>
        simp only [hs2] at h
        injection h with h
        subst h
        rfl
  · injection h with h
    subst h
    rfl

/-- Witness for C2 over one candidate, with a refinement keyword list that is
empty so the stage stops after the broad pass. -/
theorem broad_pass_all_witness :
    (MatchOutcome.mk [("all", [0])] [0] [("all", [0])] [0] false).matchedMapFirst
      = [("all", List.range ([[(0 : ℚ)]] : List Vec).length)] ∧
    ∀ g : List String → Except Err (List Vec), generateBatchEmbeddings g [] = .ok [] :=
  broad_pass_all ⟨1/5⟩ 0 provOkZero [] [[(0 : ℚ)]]
    (MatchOutcome.mk [("all", [0])] [0] [("all", [0])] [0] false) (by decide)

/-! ### Refinement failure handling (C3) -/

/-- C3 counterexample: with the broad pass matched (keyword a hits the zero
candidate at threshold 0) and the language model having produced the refined
keyword b, a provider failure on the refinement embedding call makes the whole
matching stage return that error — the broad MatchMap is lost rather than
standing as the final MatchMap. -/
theorem refinement_embed_failure_loses_broad :
    runMatchStage ⟨1/5⟩ 0 provFailOnB ["a"] ["b"] [[(0 : ℚ)]] =
      .error .providerFailure := by
  unfold runMatchStage
  have hg1 : generateBatchEmbeddings provFailOnB ["a"] = .ok [[(0 : ℚ)]] := by decide
  have ht1 : buildTermMap ["a"] [[(0 : ℚ)]] = [("a", some [(0 : ℚ)])] := by decide
  have hsearch : search ⟨1/5⟩ 0 [("a", some [(0 : ℚ)])] [[(0 : ℚ)]] =
      .ok [("a", [0])] := by
    unfold search
    rw [if_neg (by simp)]
    have hmapm : List.mapM (fun (p : String × Option Vec) =>
        match p.2 with
        | some v => Except.ok (ε := Err) v
        | none => Except.error Err.undefinedValue) [("a", some [(0 : ℚ)])] =
        .ok [[(0 : ℚ)]] := rfl
    simp only [hmapm, batch_zero_t0]
    rfl
  simp only [hg1, ht1, hsearch]
  have hd : dedupeFirst (([("a", [0])].map Prod.snd).flatten) = [0] := by decide
  simp only [hd]
  rw [if_pos (by decide)]
  have hg2 : generateBatchEmbeddings provFailOnB ["b"] = .error .providerFailure := by
    decide
  simp only [hg2]

/-- C3 amended: a failed language-model refinement call (the call itself or
its schema validation) yields no refined keywords, and the matching stage then
keeps MatchMap₁ as final without entering the refinement pass; an embedding
failure on refined terms, by contrast, propagates (see the counterexample). -/
theorem refine_failure_falls_back (modelReply : Option Json)
    (recs : List QueryRecord) (maxK : ℕ) (cfg : MatchingConfig) (t : ℚ)
    (provider : List String → Except Err (List Vec)) (kw : List String)
    (ces : List Vec) (out : MatchOutcome)
    (hfail : modelReply.bind (validateRefine maxK) = none)
    (hrun : runMatchStage cfg t provider kw
      (refineKeywordsFromRecords recs modelReply maxK) ces = .ok out) :
    refineKeywordsFromRecords recs modelReply maxK = [] ∧
    out.finalMatchedMap = out.matchedMapFirst ∧ out.refinementRan = false := by
  have hrk : refineKeywordsFromRecords recs modelReply maxK = [] := by
    unfold refineKeywordsFromRecords
    by_cases hr : recs.length = 0
    · rw [if_pos hr]
    · rw [if_neg hr, hfail]
  refine ⟨hrk, ?_⟩
  rw [hrk] at hrun
  unfold runMatchStage at hrun
  cases hg : generateBatchEmbeddings provider kw with
  | error e => simp only [hg] at hrun; exact absurd hrun (by simp)
  | ok embs =>
    simp only [hg] at hrun
    cases hs : search cfg t (buildTermMap kw embs) ces with
    | error e => simp only [hs] at hrun; exact absurd hrun (by simp)
    | ok mm =>
      simp only [hs] at hrun
      rw [if_neg (by simp)] at hrun
      injection hrun with hrun
      subst hrun
      exact ⟨rfl, rfl⟩

/-- Witness for C3 amended: a failed model call (no reply) on an empty record
set, with an empty candidate pool. -/
theorem refine_failure_falls_back_witness :
    refineKeywordsFromRecords [] none 5 = [] ∧
    (MatchOutcome.mk [("all", [])] [] [("all", [])] [] false).finalMatchedMap =
      (MatchOutcome.mk [("all", [])] [] [("all", [])] [] false).matchedMapFirst ∧
    (MatchOutcome.mk [("all", [])] [] [("all", [])] [] false).refinementRan = false :=
  refine_failure_falls_back none [] 5 ⟨1/5⟩ 0 provOkZero [] []
    (MatchOutcome.mk [("all", [])] [] [("all", [])] [] false) rfl (by decide)

/-! ### Refinement never expands the broad match set (C1) -/

/-- C1: whenever the matching stage returns, every index of every term of the
final MatchMap occurs in some entry of the broad MatchMap — in particular,
when the refinement pass executes (refined keywords present and the broad pass
nonempty), the remapped second-pass indices stay inside the broad match set. -/
theorem refinement_never_expands (cfg : MatchingConfig) (t : ℚ)
    (provider : List String → Except Err (List Vec)) (kw rkw : List String)
    (ces : List Vec) (out : MatchOutcome)
    (h : runMatchStage cfg t provider kw rkw ces = .ok out) :
    ∀ p ∈ out.finalMatchedMap, ∀ i ∈ p.2, ∃ q ∈ out.matchedMapFirst, i ∈ q.2 := by
  unfold runMatchStage at h
  cases hg : generateBatchEmbeddings provider kw with
  | error e => simp only [hg] at h; exact absurd h (by simp)
  | ok embs =>
    simp only [hg] at h
    cases hs1 : search cfg t (buildTermMap kw embs) ces with
    | error e => simp only [hs1] at h; exact absurd h (by simp)
    | ok mm1 =>
      simp only [hs1] at h
      set mIF := dedupeFirst ((mm1.map Prod.snd).flatten) with hmIF
      split at h
      · cases hg2 : generateBatchEmbeddings provider rkw with
        | error e => simp only [hg2] at h; exact absurd h (by simp)
        | ok rembs =>
          simp only [hg2] at h
          cases hs2 : search cfg t (buildTermMap rkw rembs)
              (mIF.map (fun idx => ces.getD idx [])) with
          | error e => simp only [hs2] at h; exact absurd h (by simp)
          | ok mm2 =>
            simp only [hs2] at h
            injection h with h
            subst h
            intro p hp i hi
            rcases List.mem_map.mp hp with ⟨pr, hpr, rfl⟩
            rcases List.mem_map.mp hi with ⟨rel, hrel, rfl⟩
            have hlt : rel < (mIF.map (fun idx => ces.getD idx [])).length :=
              search_index_lt cfg t _ _ mm2 hs2 pr hpr rel hrel
            rw [List.length_map] at hlt
            have himem : mIF.getD rel 0 ∈ mIF := by
              rw [List.getD_eq_getElem _ _ hlt]
              exact List.getElem_mem hlt
            rw [hmIF, mem_dedupeFirst] at himem
            rcases List.mem_flatten.mp himem with ⟨l, hl, hil⟩
            rcases List.mem_map.mp hl with ⟨q, hq, rfl⟩
            exact ⟨q, hq, hil⟩
      · injection h with h
        subst h
        intro p hp i hi
        exact ⟨p, hp, hi⟩

/-- Concrete refined run used by the C1 witness: keyword a matches the single
zero candidate in the broad pass, the refined keyword b re-matches it in the
restricted pass. -/
theorem runMatch_eval_refined :
    runMatchStage ⟨1/5⟩ 0 provOkZero ["a"] ["b"] [[(0 : ℚ)]] =
      .ok (MatchOutcome.mk [("a", [0])] [0] [("b", [0])] [0] true) := by
  unfold runMatchStage
  have hg1 : generateBatchEmbeddings provOkZero ["a"] = .ok [[(0 : ℚ)]] := by decide
  have ht1 : buildTermMap ["a"] [[(0 : ℚ)]] = [("a", some [(0 : ℚ)])] := by decide
  have hsearch1 : search ⟨1/5⟩ 0 [("a", some [(0 : ℚ)])] [[(0 : ℚ)]] =
      .ok [("a", [0])] := by
    unfold search
    rw [if_neg (by simp)]
    have hmapm : List.mapM (fun (p : String × Option Vec) =>
        match p.2 with
        | some v => Except.ok (ε := Err) v
        | none => Except.error Err.undefinedValue) [("a", some [(0 : ℚ)])] =
        .ok [[(0 : ℚ)]] := rfl
    simp only [hmapm, batch_zero_t0]
    rfl
  simp only [hg1, ht1, hsearch1]
  have hd : dedupeFirst (([("a", [0])].map Prod.snd).flatten) = [0] := by decide
  simp only [hd]
  rw [if_pos (by decide)]
  have hg2 : generateBatchEmbeddings provOkZero ["b"] = .ok [[(0 : ℚ)]] := by decide
  have ht2 : buildTermMap ["b"] [[(0 : ℚ)]] = [("b", some [(0 : ℚ)])] := by decide
  have hsub : ([0] : List ℕ).map (fun idx => ([[(0 : ℚ)]] : List Vec).getD idx []) =
      [[(0 : ℚ)]] := by decide
  have hsearch2 : search ⟨1/5⟩ 0 [("b", some [(0 : ℚ)])] [[(0 : ℚ)]] =
      .ok [("b", [0])] := by
    unfold search
    rw [if_neg (by simp)]
    have hmapm : List.mapM (fun (p : String × Option Vec) =>
        match p.2 with
        | some v => Except.ok (ε := Err) v
        | none => Except.error Err.undefinedValue) [("b", some [(0 : ℚ)])] =
        .ok [[(0 : ℚ)]] := rfl
    simp only [hmapm, batch_zero_t0]
    rfl
  simp only [hg2, ht2, hsub, hsearch2]
  have hremap : ([("b", [0])] : List (String × List ℕ)).map (fun p =>
      (p.1, p.2.map (fun rel => ([0] : List ℕ).getD rel 0))) = [("b", [0])] := by decide
  simp only [hremap]
  have hd2 : dedupeFirst (([("b", [0])].map Prod.snd).flatten) = [0] := by decide
  simp only [hd2]

/-- Witness for C1 on the concrete refined run: index 0, matched by the
refined term b, lies in the broad entry of term a. -/
theorem refinement_never_expands_witness :
    ∃ q ∈ [("a", [0])], (0 : ℕ) ∈ q.2 :=
  refinement_never_expands ⟨1/5⟩ 0 provOkZero ["a"] ["b"] [[(0 : ℚ)]]
    (MatchOutcome.mk [("a", [0])] [0] [("b", [0])] [0] true) runMatch_eval_refined
    ("b", [0]) (by decide) 0 (by decide)

/-! ### Association map lemmas for the aggregation proofs (C4) -/

theorem mapGet_mapVals {α β : Type} (f : α → β) (m : List (String × α)) (k : String) :
    mapGet (mapVals f m) k = (mapGet m k).map f := by
  induction m with
  | nil => rfl
  | cons p rest ih =>
    simp only [mapVals, List.map_cons, mapGet]
    by_cases hk : p.1 = k
    · rw [if_pos hk, if_pos hk]
      rfl
    · rw [if_neg hk, if_neg hk]
      simpa [mapVals] using ih

theorem mapVals_mapSet {α β : Type} (f : α → β) (m : List (String × α)) (k : String)
    (v : α) : mapVals f (mapSet m k v) = mapSet (mapVals f m) k (f v) := by
  induction m with
  | nil => rfl
  | cons p rest ih =>
    by_cases hk : p.1 = k
    · simp [mapVals, mapSet, hk]
    · simp only [mapVals, mapSet, List.map_cons, if_neg hk, List.cons.injEq, true_and]
      exact ih

theorem keys_mapVals {α β : Type} (f : α → β) (m : List (String × α)) :
    (mapVals f m).map Prod.fst = m.map Prod.fst := by
  induction m with
  | nil => rfl
  | cons p rest ih =>
    simp only [mapVals, List.map_cons, List.cons.injEq]
    exact ⟨trivial, ih⟩

theorem mem_keys_mapSet {α : Type} {m : List (String × α)} {k x : String} {v : α}
    (h : x ∈ (mapSet m k v).map Prod.fst) : x ∈ m.map Prod.fst ∨ x = k := by
  induction m with
  | nil =>
    simp only [mapSet, List.map_cons, List.map_nil, List.mem_singleton] at h
    exact Or.inr h
  | cons p rest ih =>
    simp only [mapSet] at h
    simp only [List.map_cons, List.mem_cons]
    by_cases hk : p.1 = k
    · rw [if_pos hk] at h
      simp only [List.map_cons, List.mem_cons] at h
      tauto
    · rw [if_neg hk] at h
      simp only [List.map_cons, List.mem_cons] at h
      rcases h with h | h
      · tauto
      · rcases ih h with h2 | h2 <;> tauto

theorem nodupKeys_mapSet {α : Type} {m : List (String × α)} (k : String) (v : α)
    (h : NodupKeys m) : NodupKeys (mapSet m k v) := by
  induction m with
  | nil => simp [NodupKeys, mapSet]
  | cons p rest ih =>
    unfold NodupKeys at h ⊢
    simp only [List.map_cons, List.nodup_cons] at h
    simp only [mapSet]
    by_cases hk : p.1 = k
    · rw [if_pos hk]
      simp only [List.map_cons, List.nodup_cons]
      exact h
    · rw [if_neg hk]
      simp only [List.map_cons, List.nodup_cons]
      refine ⟨?_, ih h.2⟩
      intro hmem
      rcases mem_keys_mapSet hmem with h2 | h2
      · exact h.1 h2
      · exact hk h2

theorem mem_mapSet {α : Type} {m : List (String × α)} {k : String} {v : α}
    {p : String × α} (h : p ∈ mapSet m k v) : p ∈ m ∨ p = (k, v) := by
  induction m with
  | nil =>
    simp only [mapSet, List.mem_singleton] at h
    exact Or.inr h
  | cons q rest ih =>
    simp only [mapSet] at h
    by_cases hk : q.1 = k
    · rw [if_pos hk] at h
      rcases List.mem_cons.mp h with rfl | h2
      · exact Or.inr (by rw [← hk])
      · exact Or.inl (List.mem_cons_of_mem _ h2)
    · rw [if_neg hk] at h
      rcases List.mem_cons.mp h with rfl | h2
      · exact Or.inl (List.mem_cons_self _ _)
      · rcases ih h2 with h3 | h3
        · exact Or.inl (List.mem_cons_of_mem _ h3)
        · exact Or.inr h3

theorem mapGet_eq_of_mem {α : Type} {m : List (String × α)} {k : String} {v : α}
    (hn : NodupKeys m) (hm : (k, v) ∈ m) : mapGet m k = some v := by
  induction m with
  | nil => simp at hm
  | cons p rest ih =>
    unfold NodupKeys at hn
    simp only [List.map_cons, List.nodup_cons] at hn
    rcases List.mem_cons.mp hm with h | h
    · rw [← h]
      simp [mapGet]
    · simp only [mapGet]
      by_cases hk : p.1 = k
      · exfalso
        apply hn.1
        rw [hk]
        exact List.mem_map.mpr ⟨(k, v), h, rfl⟩
      · rw [if_neg hk]
        exact ih hn.2 h

theorem mem_of_mapGet {α : Type} {m : List (String × α)} {k : String} {v : α}
    (h : mapGet m k = some v) : (k, v) ∈ m := by
  induction m with
  | nil => simp [mapGet] at h
  | cons p rest ih =>
    simp only [mapGet] at h
    by_cases hk : p.1 = k
    · rw [if_pos hk] at h
      injection h with h
      subst h
      rw [← hk]
      exact List.mem_cons_self _ _
    · rw [if_neg hk] at h
      exact List.mem_cons_of_mem _ (ih h)

theorem mem_insertByCountDesc {α : Type} (x y : α × ℕ) (l : List (α × ℕ)) :
    y ∈ insertByCountDesc x l ↔ y = x ∨ y ∈ l := by
  induction l with
  | nil => simp [insertByCountDesc]
  | cons z zs ih =>
    simp only [insertByCountDesc]
    by_cases hz : z.2 < x.2
    · rw [if_pos hz]
      simp [List.mem_cons]
    · rw [if_neg hz]
      simp only [List.mem_cons, ih]
      tauto

theorem mem_sortByCountDesc {α : Type} (l : List (α × ℕ)) (x : α × ℕ) :
    x ∈ sortByCountDesc l ↔ x ∈ l := by
  induction l with
  | nil => simp [sortByCountDesc]
  | cons y ys ih =>
    unfold sortByCountDesc at ih ⊢
    simp only [List.foldr_cons, mem_insertByCountDesc, ih, List.mem_cons]

/-! ### Chart data and SegmentIndex are built by the same walk (C4) -/

theorem pie_fold_eq (records : List QueryRecord) (candidates : List (ℕ × Vec)) :
    ∀ (mm : List (String × List ℕ)) (accs : List (String × List String)),
      mm.foldl (fun m p => mapSet m p.1 p.2.length) (mapVals List.length accs) =
        mapVals List.length (mm.foldl (fun m p =>
          mapSet m p.1 (p.2.map (fun idx => (recAt records candidates idx).id))) accs) := by
  intro mm
  induction mm with
  | nil => intro accs; rfl
  | cons p rest ih =>
    intro accs
    simp only [List.foldl_cons]
    have hstep : mapSet (mapVals List.length accs) p.1 p.2.length =
        mapVals List.length (mapSet accs p.1
          (p.2.map (fun idx => (recAt records candidates idx).id))) := by
      rw [mapVals_mapSet]
      congr 1
      rw [List.length_map]
    rw [hstep, ih]

theorem pieCounts_eq_segments (mm : List (String × List ℕ))
    (records : List QueryRecord) (candidates : List (ℕ × Vec)) :
    pieCounts mm = mapVals List.length (pieSegments mm records candidates) := by
  unfold pieCounts pieSegments
  exact pie_fold_eq records candidates mm []

theorem bump_push (inner : List (String × List String)) (term id : String) :
    bumpCount (mapVals List.length inner) term =
      mapVals List.length (pushInner inner term id) := by
  unfold bumpCount pushInner
  rw [mapVals_mapSet, mapGet_mapVals]
  congr 1
  cases h : mapGet inner term with
  | none => simp
  | some ids => simp

theorem grouped_inner_fold_eq (keyOf : QueryRecord → String)
    (records : List QueryRecord) (candidates : List (ℕ × Vec)) (term : String) :
    ∀ (idxs : List ℕ) (accs : List (String × List (String × List String))),
      idxs.foldl (fun m idx =>
          mapSet m (keyOf (recAt records candidates idx))
            (bumpCount ((mapGet m (keyOf (recAt records candidates idx))).getD []) term))
        (mapVals (mapVals List.length) accs) =
      mapVals (mapVals List.length) (idxs.foldl (fun m idx =>
          mapSet m (keyOf (recAt records candidates idx))
            (pushInner ((mapGet m (keyOf (recAt records candidates idx))).getD []) term
              (recAt records candidates idx).id)) accs) := by
  intro idxs
  induction idxs with
  | nil => intro accs; rfl
  | cons idx rest ih =>
    intro accs
    simp only [List.foldl_cons]
    have hget : (mapGet (mapVals (mapVals List.length) accs)
        (keyOf (recAt records candidates idx))).getD [] =
        mapVals List.length
          ((mapGet accs (keyOf (recAt records candidates idx))).getD []) := by
      rw [mapGet_mapVals]
      cases mapGet accs (keyOf (recAt records candidates idx)) <;> rfl
    have hstep : mapSet (mapVals (mapVals List.length) accs)
        (keyOf (recAt records candidates idx))
        (bumpCount ((mapGet (mapVals (mapVals List.length) accs)
          (keyOf (recAt records candidates idx))).getD []) term) =
        mapVals (mapVals List.length)
          (mapSet accs (keyOf (recAt records candidates idx))
            (pushInner ((mapGet accs (keyOf (recAt records candidates idx))).getD []) term
              (recAt records candidates idx).id)) := by
      rw [mapVals_mapSet, hget, bump_push]
    rw [hstep, ih]

theorem grouped_fold_eq (keyOf : QueryRecord → String)
    (records : List QueryRecord) (candidates : List (ℕ × Vec)) :
    ∀ (mm : List (String × List ℕ)) (accs : List (String × List (String × List String))),
      mm.foldl (fun m p => p.2.foldl (fun m idx =>
          mapSet m (keyOf (recAt records candidates idx))
            (bumpCount ((mapGet m (keyOf (recAt records candidates idx))).getD []) p.1)) m)
        (mapVals (mapVals List.length) accs) =
      mapVals (mapVals List.length) (mm.foldl (fun m p => p.2.foldl (fun m idx =>
          mapSet m (keyOf (recAt records candidates idx))
            (pushInner ((mapGet m (keyOf (recAt records candidates idx))).getD []) p.1
              (recAt records candidates idx).id)) m) accs) := by
  intro mm
  induction mm with
  | nil => intro accs; rfl
  | cons p rest ih =>
    intro accs
    simp only [List.foldl_cons]
    rw [grouped_inner_fold_eq keyOf records candidates p.1 p.2 accs, ih]

theorem grouped_eq (keyOf : QueryRecord → String) (mm : List (String × List ℕ))
    (records : List QueryRecord) (candidates : List (ℕ × Vec)) :
    groupedCounts keyOf mm records candidates =
      mapVals (mapVals List.length) (groupedSegments keyOf mm records candidates) := by
  unfold groupedCounts groupedSegments
  exact grouped_fold_eq keyOf records candidates mm []

theorem pieSegments_nodupKeys (mm : List (String × List ℕ))
    (records : List QueryRecord) (candidates : List (ℕ × Vec)) :
    NodupKeys (pieSegments mm records candidates) := by
  unfold pieSegments
  suffices aux : ∀ (mm2 : List (String × List ℕ)) (acc : List (String × List String)),
      NodupKeys acc → NodupKeys (mm2.foldl (fun m p =>
        mapSet m p.1 (p.2.map (fun idx => (recAt records candidates idx).id))) acc) by
    exact aux mm [] (by simp [NodupKeys])
  intro mm2
  induction mm2 with
  | nil => intro acc h; exact h
  | cons p rest ih =>
    intro acc h
    simp only [List.foldl_cons]
    exact ih _ (nodupKeys_mapSet _ _ h)

theorem push_step_preserves (acc : List (String × List (String × List String)))
    (key term id : String)
    (h : NodupKeys acc ∧ ∀ p ∈ acc, NodupKeys p.2) :
    NodupKeys (mapSet acc key (pushInner ((mapGet acc key).getD []) term id)) ∧
    ∀ p ∈ mapSet acc key (pushInner ((mapGet acc key).getD []) term id),
      NodupKeys p.2 := by
  refine ⟨nodupKeys_mapSet _ _ h.1, ?_⟩
  intro p hp
  rcases mem_mapSet hp with hmem | rfl
  · exact h.2 p hmem
  · show NodupKeys (pushInner ((mapGet acc key).getD []) term id)
    unfold pushInner
    apply nodupKeys_mapSet
    cases hg : mapGet acc key with
    | none => simp [NodupKeys]
    | some cur => exact h.2 (key, cur) (mem_of_mapGet hg)

theorem grouped_inner_invariant (keyOf : QueryRecord → String)
    (records : List QueryRecord) (candidates : List (ℕ × Vec)) (term : String) :
    ∀ (idxs : List ℕ) (acc : List (String × List (String × List String))),
      (NodupKeys acc ∧ ∀ p ∈ acc, NodupKeys p.2) →
      (NodupKeys (idxs.foldl (fun m idx =>
          mapSet m (keyOf (recAt records candidates idx))
            (pushInner ((mapGet m (keyOf (recAt records candidates idx))).getD []) term
              (recAt records candidates idx).id)) acc) ∧
        ∀ p ∈ idxs.foldl (fun m idx =>
          mapSet m (keyOf (recAt records candidates idx))
            (pushInner ((mapGet m (keyOf (recAt records candidates idx))).getD []) term
              (recAt records candidates idx).id)) acc, NodupKeys p.2) := by
  intro idxs
  induction idxs with
  | nil => intro acc h; exact h
  | cons idx rest ih =>
    intro acc h
    simp only [List.foldl_cons]
    exact ih _ (push_step_preserves acc _ term _ h)

theorem groupedSegments_invariant (keyOf : QueryRecord → String)
    (mm : List (String × List ℕ)) (records : List QueryRecord)
    (candidates : List (ℕ × Vec)) :
    NodupKeys (groupedSegments keyOf mm records candidates) ∧
    ∀ p ∈ groupedSegments keyOf mm records candidates, NodupKeys p.2 := by
  unfold groupedSegments
  suffices aux : ∀ (mm2 : List (String × List ℕ))
      (acc : List (String × List (String × List String))),
      (NodupKeys acc ∧ ∀ p ∈ acc, NodupKeys p.2) →
      (NodupKeys (mm2.foldl (fun m p => p.2.foldl (fun m idx =>
          mapSet m (keyOf (recAt records candidates idx))
            (pushInner ((mapGet m (keyOf (recAt records candidates idx))).getD []) p.1
              (recAt records candidates idx).id)) m) acc) ∧
        ∀ q ∈ mm2.foldl (fun m p => p.2.foldl (fun m idx =>
          mapSet m (keyOf (recAt records candidates idx))
            (pushInner ((mapGet m (keyOf (recAt records candidates idx))).getD []) p.1
              (recAt records candidates idx).id)) m) acc, NodupKeys q.2) by
    exact aux mm [] ⟨by simp [NodupKeys], by simp⟩
  intro mm2
  induction mm2 with
  | nil => intro acc h; exact h
  | cons p rest ih =>
    intro acc h
    simp only [List.foldl_cons]
    exact ih _ (grouped_inner_invariant keyOf records candidates p.1 p.2 acc h)

theorem grouped_datum_consistency (keyOf : QueryRecord → String)
    (mm : List (String × List ℕ)) (records : List QueryRecord)
    (candidates : List (ℕ × Vec)) (g : String) (innerC : List (String × ℕ))
    (hg : mapGet (groupedCounts keyOf mm records candidates) g = some innerC) :
    ∀ lc ∈ innerC, ∃ ids,
      (mapGet (groupedSegments keyOf mm records candidates) g).bind
        (fun inner => mapGet inner lc.1) = some ids ∧ ids.length = lc.2 := by
  intro lc hlc
  rw [grouped_eq keyOf mm records candidates, mapGet_mapVals] at hg
  cases hgs : mapGet (groupedSegments keyOf mm records candidates) g with
  | none => rw [hgs] at hg; simp at hg
  | some innerS =>
    rw [hgs] at hg
    simp only [Option.map_some', Option.some.injEq] at hg
    subst hg
    rcases List.mem_map.mp hlc with ⟨q, hq, rfl⟩
    have hnod : NodupKeys innerS :=
      (groupedSegments_invariant keyOf mm records candidates).2 (g, innerS)
        (mem_of_mapGet hgs)
    refine ⟨q.2, ?_, rfl⟩
    simp only [Option.some_bind]
    exact mapGet_eq_of_mem hnod hq

/-- C4: for every MatchMap, record list and chart kind, the emitted chart
data and the segment index built from the same MatchMap agree: the record-id
list stored under each emitted segment key has length equal to that segment
datum count — for pie per term, for line per (day, term), for bar per
(group, term). -/
theorem segmentIndex_consistency (mm : List (String × List ℕ))
    (records : List QueryRecord) (candidates : List (ℕ × Vec)) :
    (∀ lc ∈ pieData mm, ∃ ids,
        mapGet (pieSegments mm records candidates) lc.1 = some ids ∧
        ids.length = lc.2) ∧
    (∀ d ∈ lineData mm records candidates, ∀ lc ∈ d.2, ∃ ids,
        (mapGet (lineSegments mm records candidates) d.1).bind
          (fun inner => mapGet inner lc.1) = some ids ∧ ids.length = lc.2) ∧
    (∀ d ∈ barData mm records candidates, ∀ lc ∈ d.2, ∃ ids,
        (mapGet (barSegments mm records candidates) d.1).bind
          (fun inner => mapGet inner lc.1) = some ids ∧ ids.length = lc.2) := by
  refine ⟨?_, ?_, ?_⟩
  · intro lc hlc
    unfold pieData at hlc
    have hmem := (mem_sortByCountDesc _ _).mp hlc
    rw [pieCounts_eq_segments mm records candidates] at hmem
    rcases List.mem_map.mp hmem with ⟨q, hq, rfl⟩
    exact ⟨q.2, mapGet_eq_of_mem (pieSegments_nodupKeys mm records candidates) hq, rfl⟩
  · intro d hd lc hlc
    simp only [lineData] at hd
    rcases List.mem_map.mp hd with ⟨day, _, rfl⟩
    have hlc2 := (mem_sortByCountDesc _ _).mp hlc
    cases hg : mapGet (groupedCounts dayOf mm records candidates) day with
    | none => rw [hg] at hlc2; simp at hlc2
    | some innerC =>
      rw [hg] at hlc2
      simp only [Option.getD_some] at hlc2
      exact grouped_datum_consistency dayOf mm records candidates day innerC hg lc hlc2
  · intro d hd lc hlc
    simp only [barData] at hd
    rcases List.mem_map.mp hd with ⟨pr, hpr, rfl⟩
    have hlc2 := (mem_sortByCountDesc _ _).mp hlc
    have hnodc : NodupKeys (groupedCounts userOf mm records candidates) := by
      rw [grouped_eq]
      unfold NodupKeys
      rw [keys_mapVals]
      exact (groupedSegments_invariant userOf mm records candidates).1
    have hget : mapGet (groupedCounts userOf mm records candidates) pr.1 = some pr.2 :=
      mapGet_eq_of_mem hnodc hpr
    exact grouped_datum_consistency userOf mm records candidates pr.1 pr.2 hget lc hlc2

/-- Witness for C4: one matched record under term a; the pie segment list for
a holds exactly one record id. -/
theorem segmentIndex_consistency_witness :
    ∃ ids, mapGet (pieSegments [("a", [0])]
      [QueryRecord.mk "id0" "u" none none none none "2024-01-01" RawKeywords.null]
      [(0, [])]) "a" = some ids ∧ ids.length = 1 :=
  (segmentIndex_consistency [("a", [0])]
    [QueryRecord.mk "id0" "u" none none none none "2024-01-01" RawKeywords.null]
    [(0, [])]).1 ("a", 1) (by decide)

end PromptLens
